import Mathlib

/-!
Verification of the Gematria chat-relay assistant against its design document.

The development shallowly embeds the two Python sources:
  * MetaLLM.py            — the Discord-facing dispatcher (message queueing,
    relevance filtering, LLM calls, reply recording and outbound chunking);
  * Chat History Service/main.py — the FastAPI + sqlite message store
    (add_message, get_conversation_history, get_relevant_context).

Pure fragments are translated into executable Lean functions; the per-channel
asynchronous dispatcher is modelled as an interleaving transition system whose
atomic steps are the code segments between asyncio suspension points.
-/

namespace MetaBot

/-- MetaLLM.py line 52: maximum length of a single Discord message. -/
def MAX_MESSAGE_LENGTH : Nat := 1900

/-- Python str.lstrip() strips these whitespace characters (ASCII range).
Used by split_message (MetaLLM.py line 141) via content.lstrip(). -/
def isPySpace (c : Char) : Bool :=
  c = ' ' || c = '\t' || c = '\n' || c = '\r' || c = '\x0b' || c = '\x0c'

/-- Largest index i < bound with p (cs.get i), if any.  With p := (· = ' ')
this is Python content.rfind(' ', 0, bound) (MetaLLM.py line 137), except that
Python returns -1 instead of none. -/
def lastIdxBefore (p : Char → Bool) : List Char → Nat → Option Nat
  | [], _ => none
  | _ :: _, 0 => none
  | c :: cs, n + 1 =>
    match lastIdxBefore p cs n with
    | some i => some (i + 1)
    | none => if p c then some 0 else none

/-- content.rfind(' ', 0, MAX_MESSAGE_LENGTH) from MetaLLM.py line 137
(searches for the space character only). -/
def lastSpaceBefore (cs : List Char) (bound : Nat) : Option Nat :=
  lastIdxBefore (fun c => c = ' ') cs bound

/-- MetaLLM.py lines 137-139: the index at which the current chunk ends;
rfind result if a space was found, otherwise MAX_MESSAGE_LENGTH. -/
def splitIndexAt (content : List Char) : Nat :=
  match lastSpaceBefore content MAX_MESSAGE_LENGTH with
  | some i => i
  | none => MAX_MESSAGE_LENGTH

theorem lastIdxBefore_lt_bound {p : Char → Bool} :
    ∀ (cs : List Char) (n i : Nat), lastIdxBefore p cs n = some i → i < n ∧ i < cs.length
  | [], n, i, h => by simp [lastIdxBefore] at h
  | c :: cs, 0, i, h => by simp [lastIdxBefore] at h
  | c :: cs, n + 1, i, h => by
    unfold lastIdxBefore at h
    cases hrec : lastIdxBefore p cs n with
    | some j =>
      rw [hrec] at h
      obtain ⟨h1, h2⟩ := lastIdxBefore_lt_bound cs n j hrec
      simp only [Option.some.injEq] at h
      subst h
      constructor <;> [omega; simpa using Nat.succ_lt_succ h2]
    | none =>
      rw [hrec] at h
      by_cases hp : p c
      · simp [hp] at h
        subst h
        simp
      · simp [hp] at h

theorem lastIdxBefore_sat {p : Char → Bool} :
    ∀ (cs : List Char) (n i : Nat), lastIdxBefore p cs n = some i →
      ∃ c, cs[i]? = some c ∧ p c = true := by
  intro cs n i h
  induction cs generalizing n i with
  | nil => simp [lastIdxBefore] at h
  | cons c cs ih =>
    cases n with
    | zero => simp [lastIdxBefore] at h
    | succ n =>
      unfold lastIdxBefore at h
      cases hrec : lastIdxBefore p cs n with
      | some j =>
        rw [hrec] at h
        simp only [Option.some.injEq] at h
        subst h
        obtain ⟨d, hd, hpd⟩ := ih n j hrec
        exact ⟨d, by simpa using hd, hpd⟩
      | none =>
        rw [hrec] at h
        by_cases hp : p c
        · simp [hp] at h
          subst h
          exact ⟨c, by simp, hp⟩
        · simp [hp] at h

theorem lastIdxBefore_none_of_not {p : Char → Bool} :
    ∀ (cs : List Char) (n : Nat), (∀ c ∈ cs.take n, ¬ p c) → lastIdxBefore p cs n = none
  | [], n, _ => by simp [lastIdxBefore]
  | c :: cs, 0, _ => by simp [lastIdxBefore]
  | c :: cs, n + 1, h => by
    have hc : ¬ p c := h c (by simp)
    have hrec : lastIdxBefore p cs n = none :=
      lastIdxBefore_none_of_not cs n (fun x hx => h x (by simp [List.take_cons]; right; exact hx))
    unfold lastIdxBefore
    rw [hrec]
    simp [hc]

theorem splitIndexAt_le (content : List Char) :
    splitIndexAt content ≤ MAX_MESSAGE_LENGTH := by
  unfold splitIndexAt
  cases hs : lastSpaceBefore content MAX_MESSAGE_LENGTH with
  | some i => exact Nat.le_of_lt (lastIdxBefore_lt_bound content MAX_MESSAGE_LENGTH i hs).1
  | none => exact Nat.le_refl _

theorem splitMessage_rest_lt (content : List Char)
    (h : MAX_MESSAGE_LENGTH < content.length) :
    ((content.drop (splitIndexAt content)).dropWhile isPySpace).length < content.length := by
  have hlen : ((content.drop (splitIndexAt content)).dropWhile isPySpace).length ≤
      (content.drop (splitIndexAt content)).length :=
    (List.dropWhile_sublist _).length_le
  rw [List.length_drop] at hlen
  cases hs : lastSpaceBefore content MAX_MESSAGE_LENGTH with
  | some i =>
    have hi := lastIdxBefore_lt_bound content MAX_MESSAGE_LENGTH i hs
    obtain ⟨c, hc, hpc⟩ := lastIdxBefore_sat content MAX_MESSAGE_LENGTH i hs
    have hceq : content[i] = c := by
      rw [List.getElem?_eq_getElem hi.2] at hc
      exact Option.some.inj hc
    have hdrop : content.drop i = c :: content.drop (i + 1) := by
      rw [List.drop_eq_getElem_cons hi.2, hceq]
    have hcsp : c = ' ' := by simpa using hpc
    have hsplit : splitIndexAt content = i := by simp [splitIndexAt, hs]
    rw [hsplit]
    have : ((content.drop i).dropWhile isPySpace).length ≤ (content.drop (i + 1)).length := by
      rw [hdrop, List.dropWhile_cons_of_pos (by simp [isPySpace, hcsp])]
      exact (List.dropWhile_sublist _).length_le
    rw [List.length_drop] at this
    omega
  | none =>
    have hsplit : splitIndexAt content = MAX_MESSAGE_LENGTH := by simp [splitIndexAt, hs]
    rw [hsplit] at hlen ⊢
    have : 0 < MAX_MESSAGE_LENGTH := by decide
    omega

/-- MetaLLM.py lines 134-143, split_message: repeatedly cut the content at the
last space before the 1900-character budget (or exactly at the budget when no
space occurs there), lstrip the remainder, and collect the chunks. -/
def splitMessage (content : List Char) : List (List Char) :=
  if h : MAX_MESSAGE_LENGTH < content.length then
    content.take (splitIndexAt content) ::
      splitMessage ((content.drop (splitIndexAt content)).dropWhile isPySpace)
  else
    [content]
termination_by content.length
decreasing_by
  exact splitMessage_rest_lt content h

theorem splitMessage_of_le (content : List Char) (h : ¬ MAX_MESSAGE_LENGTH < content.length) :
    splitMessage content = [content] := by
  rw [splitMessage]
  simp [h]

theorem splitMessage_of_lt (content : List Char) (h : MAX_MESSAGE_LENGTH < content.length) :
    splitMessage content = content.take (splitIndexAt content) ::
      splitMessage ((content.drop (splitIndexAt content)).dropWhile isPySpace) := by
  rw [splitMessage]
  simp [h]

theorem splitMessage_ne_nil (content : List Char) : splitMessage content ≠ [] := by
  by_cases h : MAX_MESSAGE_LENGTH < content.length
  · rw [splitMessage_of_lt content h]
    simp
  · rw [splitMessage_of_le content h]
    simp

theorem splitMessage_chunks_le (content : List Char) :
    ∀ part ∈ splitMessage content, part.length ≤ MAX_MESSAGE_LENGTH := by
  by_cases h : MAX_MESSAGE_LENGTH < content.length
  · rw [splitMessage_of_lt content h]
    intro part hp
    rcases List.mem_cons.mp hp with rfl | hp
    · calc (content.take (splitIndexAt content)).length
          ≤ splitIndexAt content := by
            rw [List.length_take]
            exact Nat.min_le_left _ _
        _ ≤ MAX_MESSAGE_LENGTH := splitIndexAt_le content
    · exact splitMessage_chunks_le _ part hp
  · rw [splitMessage_of_le content h]
    intro part hp
    rcases List.mem_cons.mp hp with rfl | hp
    · omega
    · simp at hp
termination_by content.length
decreasing_by
  exact splitMessage_rest_lt content h

theorem takeWhile_mem_sat {α : Type} (p : α → Bool) :
    ∀ (l : List α) (a : α), a ∈ l.takeWhile p → p a = true
  | [], a, h => by simp [List.takeWhile] at h
  | x :: xs, a, h => by
    by_cases hp : p x
    · rw [List.takeWhile_cons_of_pos hp] at h
      rcases List.mem_cons.mp h with rfl | h
      · exact hp
      · exact takeWhile_mem_sat p xs a h
    · rw [List.takeWhile_cons_of_neg hp] at h
      simp at h

theorem lastIdxBefore_zero (p : Char → Bool) (cs : List Char) :
    lastIdxBefore p cs 0 = none := by
  cases cs <;> rfl

theorem lastIdxBefore_append (p : Char → Bool) (l1 : List Char)
    (hl : ∀ c ∈ l1, ¬ p c) (rest : List Char) (n : Nat) :
    lastIdxBefore p (l1 ++ rest) (l1.length + n) =
      (lastIdxBefore p rest n).map (fun i => i + l1.length) := by
  induction l1 with
  | nil =>
    simp only [List.nil_append, List.length_nil, Nat.zero_add]
    cases lastIdxBefore p rest n <;> simp
  | cons c cs ih =>
    have hc : ¬ p c := hl c (by simp)
    have ih2 := ih (fun x hx => hl x (by simp [hx]))
    have hb : (c :: cs).length + n = (cs.length + n) + 1 := by
      simp only [List.length_cons]
      omega
    rw [hb]
    show lastIdxBefore p (c :: (cs ++ rest)) ((cs.length + n) + 1) = _
    cases hrest : lastIdxBefore p rest n with
    | some j =>
      have ih3 : lastIdxBefore p (cs ++ rest) (cs.length + n) = some (j + cs.length) := by
        rw [ih2, hrest]
        rfl
      unfold lastIdxBefore
      rw [ih3]
      show some (j + cs.length + 1) = some (j + (c :: cs).length)
      simp only [Option.some.injEq, List.length_cons]
      omega
    | none =>
      have ih3 : lastIdxBefore p (cs ++ rest) (cs.length + n) = none := by
        rw [ih2, hrest]
        rfl
      unfold lastIdxBefore
      rw [ih3]
      show (if p c = true then some 0 else none) = none
      simp [hc]

/-- The spec's §6 notion of the cut point: the last WHITESPACE at-or-before
the budget.  The code, by contrast, searches only for the space
character (rfind with sub = a single space). -/
def lastWsBefore (cs : List Char) (bound : Nat) : Option Nat :=
  lastIdxBefore isPySpace cs bound

/-- A 3801-character reply whose only whitespace is a tab at index 1899. -/
def c8Text : List Char := List.replicate 1899 'a' ++ '\t' :: List.replicate 1901 'b'

theorem two_chunks_of_no_space (content : List Char)
    (hlen : content.length = 3800)
    (h1900 : ∀ c ∈ content.take MAX_MESSAGE_LENGTH, ¬ isPySpace c) :
    splitMessage content =
      [content.take MAX_MESSAGE_LENGTH,
       (content.drop MAX_MESSAGE_LENGTH).dropWhile isPySpace] ∧
    content.take MAX_MESSAGE_LENGTH ++
      ((content.drop MAX_MESSAGE_LENGTH).takeWhile isPySpace ++
       (content.drop MAX_MESSAGE_LENGTH).dropWhile isPySpace) = content ∧
    ((content.drop MAX_MESSAGE_LENGTH).dropWhile isPySpace).length ≤ MAX_MESSAGE_LENGTH ∧
    (content.take MAX_MESSAGE_LENGTH).length ≤ MAX_MESSAGE_LENGTH := by
  have hlt : MAX_MESSAGE_LENGTH < content.length := by
    rw [hlen]
    decide
  have hnone : lastSpaceBefore content MAX_MESSAGE_LENGTH = none := by
    apply lastIdxBefore_none_of_not
    intro c hc
    have h2 := h1900 c hc
    intro hceq
    apply h2
    have : c = ' ' := by simpa using hceq
    rw [this]
    rfl
  have hidx : splitIndexAt content = MAX_MESSAGE_LENGTH := by
    unfold splitIndexAt lastSpaceBefore
    unfold lastSpaceBefore at hnone
    rw [hnone]
  have hrlen : ((content.drop MAX_MESSAGE_LENGTH).dropWhile isPySpace).length ≤
      MAX_MESSAGE_LENGTH := by
    have hd := (List.dropWhile_sublist
      (l := content.drop MAX_MESSAGE_LENGTH) isPySpace).length_le
    rw [List.length_drop, hlen] at hd
    calc ((content.drop MAX_MESSAGE_LENGTH).dropWhile isPySpace).length
        ≤ 3800 - MAX_MESSAGE_LENGTH := hd
      _ ≤ MAX_MESSAGE_LENGTH := by decide
  refine ⟨?_, ?_, hrlen, ?_⟩
  · rw [splitMessage_of_lt content hlt, hidx,
      splitMessage_of_le _ (by omega)]
  · rw [List.takeWhile_append_dropWhile, List.take_append_drop]
  · rw [List.length_take]
    exact Nat.min_le_left _ _

theorem ws_list_short (w : List Char) (hsp : ∀ a ∈ w, a = ' ')
    (hlen : w.length ≤ 1) : w = [] ∨ w = [' '] := by
  cases w with
  | nil => exact Or.inl rfl
  | cons c t =>
    cases t with
    | nil =>
      right
      rw [hsp c (by simp)]
    | cons d u => simp at hlen

/-- C10: split_message terminates on every input (it is a total function of
this development) and returns a non-empty list of chunks, each chunk at most
MAX_MESSAGE_LENGTH = 1900 characters long, including inputs with no
whitespace at all and inputs consisting only of whitespace. -/
theorem c10_split_message_total_bounded (content : List Char) :
    splitMessage content ≠ [] ∧
    ∀ part ∈ splitMessage content, part.length ≤ MAX_MESSAGE_LENGTH :=
  ⟨splitMessage_ne_nil content, splitMessage_chunks_le content⟩

/-- Witness for C10 at a concrete whitespace-free input of length 4000. -/
theorem c10_witness :
    splitMessage (List.replicate 4000 'a') ≠ [] ∧
    ∀ part ∈ splitMessage (List.replicate 4000 'a'),
      part.length ≤ MAX_MESSAGE_LENGTH :=
  c10_split_message_total_bounded (List.replicate 4000 'a')

/-- C8 counterexample: the claim says split_message splits at the last
whitespace at-or-before the 1900 budget.  c8Text has its last (and only)
whitespace, a tab, at index 1899, yet the first chunk is the 1900-character
chunk content.take 1900 (the code's rfind searches for the space character
only, so the tab is not a cut point), not content.take 1899 as the claim
requires. -/
theorem c8_whitespace_counterexample :
    MAX_MESSAGE_LENGTH < c8Text.length ∧
    lastWsBefore c8Text MAX_MESSAGE_LENGTH = some 1899 ∧
    (splitMessage c8Text).head? = some (c8Text.take MAX_MESSAGE_LENGTH) ∧
    c8Text.take MAX_MESSAGE_LENGTH ≠ c8Text.take 1899 := by
  have hlen : c8Text.length = 3801 := by
    rw [c8Text]
    simp only [List.length_append, List.length_cons, List.length_replicate]
  have hltake : c8Text.take MAX_MESSAGE_LENGTH =
      List.replicate 1899 'a' ++ ['\t'] := by
    show c8Text.take 1900 = _
    have h19 : (1900 : Nat) = (List.replicate 1899 'a').length + 1 := by
      simp only [List.length_replicate]
    rw [c8Text, h19, List.take_append]
    simp only [List.take_succ_cons, List.take_zero]
  refine ⟨by rw [hlen]; decide, ?_, ?_, ?_⟩
  · have hl1 : ∀ c ∈ List.replicate 1899 'a', ¬ isPySpace c := by
      intro c hc
      rw [List.eq_of_mem_replicate hc]
      decide
    have h1 := lastIdxBefore_append isPySpace (List.replicate 1899 'a') hl1
      ('\t' :: List.replicate 1901 'b') 1
    have h2 : lastIdxBefore isPySpace ('\t' :: List.replicate 1901 'b') 1 = some 0 := by
      decide
    rw [h2] at h1
    simp only [List.length_replicate, Option.map] at h1
    show lastIdxBefore isPySpace
      (List.replicate 1899 'a' ++ '\t' :: List.replicate 1901 'b') 1900 = some 1899
    have h3 : (1900 : Nat) = 1899 + 1 := by decide
    rw [h3]
    exact h1
  · have hsp : lastSpaceBefore c8Text MAX_MESSAGE_LENGTH = none := by
      apply lastIdxBefore_none_of_not
      intro c hc
      rw [hltake] at hc
      rcases List.mem_append.mp hc with hc | hc
      · rw [List.eq_of_mem_replicate hc]
        decide
      · rw [List.mem_singleton.mp hc]
        decide
    have hidx : splitIndexAt c8Text = MAX_MESSAGE_LENGTH := by
      unfold splitIndexAt
      rw [hsp]
    rw [splitMessage_of_lt c8Text (by rw [hlen]; decide), hidx]
    rfl
  · intro heq
    have hlen2 := congrArg List.length heq
    rw [List.length_take, List.length_take, hlen] at hlen2
    simp [Nat.min_def, MAX_MESSAGE_LENGTH] at hlen2

/-- C8 (amended): split_message cuts at the last SPACE character (U+0020) at
or before the 1900-character budget — not at arbitrary whitespace — with the
remainder (leading whitespace stripped) forming the following chunks; and for
a 3800-character reply whose single interior space is the only whitespace and
which has no whitespace at-or-before the 1900 boundary, the result is exactly
two chunks, each within the budget, whose concatenation (re-inserting the
removed space, when one was removed) reconstructs the original text. -/
theorem c8_split_at_last_space_amended :
    (∀ (content : List Char) (i : Nat), MAX_MESSAGE_LENGTH < content.length →
      lastSpaceBefore content MAX_MESSAGE_LENGTH = some i →
      splitMessage content =
        content.take i :: splitMessage ((content.drop i).dropWhile isPySpace)) ∧
    (∀ content : List Char, content.length = 3800 →
      (∀ c ∈ content.take MAX_MESSAGE_LENGTH, ¬ isPySpace c) →
      content.countP isPySpace ≤ 1 →
      (∀ c ∈ content, isPySpace c → c = ' ') →
      ∃ c1 c2 w, splitMessage content = [c1, c2] ∧
        c1 ++ (w ++ c2) = content ∧ (w = [] ∨ w = [' ']) ∧
        c1.length ≤ MAX_MESSAGE_LENGTH ∧ c2.length ≤ MAX_MESSAGE_LENGTH) := by
  constructor
  · intro content i hlt hs
    have hidx : splitIndexAt content = i := by
      unfold splitIndexAt
      rw [hs]
    rw [splitMessage_of_lt content hlt, hidx]
  · intro content hlen h1900 hcount hsp
    obtain ⟨hchunks, hrecon, hc2len, hc1len⟩ := two_chunks_of_no_space content hlen h1900
    refine ⟨content.take MAX_MESSAGE_LENGTH,
      (content.drop MAX_MESSAGE_LENGTH).dropWhile isPySpace,
      (content.drop MAX_MESSAGE_LENGTH).takeWhile isPySpace,
      hchunks, hrecon, ?_, hc1len, hc2len⟩
    have hwsub : List.Sublist ((content.drop MAX_MESSAGE_LENGTH).takeWhile isPySpace)
        content :=
      (List.takeWhile_sublist isPySpace).trans (List.drop_sublist _ _)
    have hwsat : ∀ a ∈ (content.drop MAX_MESSAGE_LENGTH).takeWhile isPySpace,
        isPySpace a = true :=
      fun a ha => takeWhile_mem_sat isPySpace _ a ha
    have hwcount : ((content.drop MAX_MESSAGE_LENGTH).takeWhile isPySpace).countP isPySpace =
        ((content.drop MAX_MESSAGE_LENGTH).takeWhile isPySpace).length :=
      List.countP_eq_length.mpr hwsat
    have hwle := hwsub.countP_le (p := isPySpace)
    apply ws_list_short
    · intro a ha
      exact hsp a (hwsub.subset ha) (hwsat a ha)
    · omega

/-- A 3800-character reply whose single interior space sits at index 1900,
just past the budget boundary. -/
def c8WitnessText : List Char := List.replicate 1900 'a' ++ ' ' :: List.replicate 1899 'b'

/-- Witness for C8 (amended) at c8WitnessText: the hypotheses hold and the
text splits into exactly two in-budget chunks reconstructing the original. -/
theorem c8_amended_witness :
    c8WitnessText.length = 3800 ∧
    (∀ c ∈ c8WitnessText.take MAX_MESSAGE_LENGTH, ¬ isPySpace c) ∧
    c8WitnessText.countP isPySpace ≤ 1 ∧
    (∀ c ∈ c8WitnessText, isPySpace c → c = ' ') ∧
    (∃ c1 c2 w, splitMessage c8WitnessText = [c1, c2] ∧
      c1 ++ (w ++ c2) = c8WitnessText ∧ (w = [] ∨ w = [' ']) ∧
      c1.length ≤ MAX_MESSAGE_LENGTH ∧ c2.length ≤ MAX_MESSAGE_LENGTH) := by
  have h1 : c8WitnessText.length = 3800 := by
    rw [c8WitnessText]
    simp only [List.length_append, List.length_cons, List.length_replicate]
  have htake : c8WitnessText.take MAX_MESSAGE_LENGTH = List.replicate 1900 'a' := by
    have h0 := @List.take_append Char (List.replicate 1900 'a')
      (' ' :: List.replicate 1899 'b') 0
    simp only [List.length_replicate, Nat.add_zero, List.take_zero,
      List.append_nil] at h0
    exact h0
  have h2 : ∀ c ∈ c8WitnessText.take MAX_MESSAGE_LENGTH, ¬ isPySpace c := by
    intro c hc
    rw [htake] at hc
    rw [List.eq_of_mem_replicate hc]
    decide
  have h3 : c8WitnessText.countP isPySpace ≤ 1 := by
    rw [c8WitnessText]
    simp only [List.countP_append, List.countP_cons, List.countP_replicate]
    decide
  have h4 : ∀ c ∈ c8WitnessText, isPySpace c → c = ' ' := by
    intro c hc
    rw [c8WitnessText] at hc
    rcases List.mem_append.mp hc with hc | hc
    · rw [List.eq_of_mem_replicate hc]
      decide
    · rcases List.mem_cons.mp hc with rfl | hc
      · intro _
        rfl
      · rw [List.eq_of_mem_replicate hc]
        decide
  exact ⟨h1, h2, h3, h4, c8_split_at_last_space_amended.2 c8WitnessText h1 h2 h3 h4⟩

/-- MetaLLM.py line 31: the assistant's configured name.  bot.user.name, the
Discord account name consulted by both filters, is modelled by the same
constant. -/
def BOT_NAME : List Char := "META".toList

/-- MetaLLM.py line 35: the known peer assistants. -/
def OTHER_BOTS : List (List Char) := ["HERMES".toList, "NEMO".toList, "NEMOTRON".toList]

/-- Python's substring test, the `in` operator on str. -/
def containsSub (needle hay : List Char) : Bool :=
  hay.tails.any (fun t => needle.isPrefixOf t)

/-- Python str.lower / str.upper on the ASCII identifiers involved here. -/
def lowerStr (s : List Char) : List Char := s.map Char.toLower

def upperStr (s : List Char) : List Char := s.map Char.toUpper

/-- The attributes of an inbound Discord message consulted by the two filters
in MetaLLM.py.  authorIsBot is message.author.bot; mentionsBot is
bot.user.mentioned_in(message); replyToBot abbreviates the conjunction
message.reference and message.reference.resolved and
message.reference.resolved.author == bot.user. -/
structure DMessage where
  content : List Char
  authorName : List Char
  authorId : List Char
  authorIsBot : Bool
  mentionsBot : Bool
  replyToBot : Bool
deriving DecidableEq

/-- bot.user.name.lower() in message.content.lower() (MetaLLM.py lines 197
and 257). -/
def nameInContent (botUserName : List Char) (m : DMessage) : Bool :=
  containsSub (lowerStr botUserName) (lowerStr m.content)

/-- MetaLLM.py lines 255-261: should_process in on_message.  randHit stands
for the outcome of the draw random.random() < 0.1; note the clause
message.author.bot admits every bot-authored message. -/
def shouldProcess (botUserName : List Char) (randHit : Bool) (m : DMessage) : Bool :=
  m.mentionsBot || nameInContent botUserName m || m.authorIsBot ||
    m.replyToBot || randHit

/-- MetaLLM.py lines 196-199: the relevance filter the worker applies to each
popped batch.  The random clause is absent here, and the author test compares
author.name.upper() against the known peer names. -/
def isRelevant (botUserName : List Char) (m : DMessage) : Bool :=
  m.mentionsBot || nameInContent botUserName m ||
    OTHER_BOTS.any (fun b => upperStr m.authorName == b) || m.replyToBot

/-- A message triggers a reply exactly when it passes both filters: enqueued
by on_message (shouldProcess) and retained by the worker (isRelevant). -/
def triggersReply (botUserName : List Char) (randHit : Bool) (m : DMessage) : Bool :=
  shouldProcess botUserName randHit m && isRelevant botUserName m

/-- MetaLLM.py lines 249-253: every message not authored by the bot itself is
recorded through record_user_message before any filtering. -/
def onMessageRecords (authorIsSelf : Bool) : Bool :=
  !authorIsSelf

/-- Modelled from the spec: C3's trigger criterion — directly addressed, name
in text case-insensitively, authored by a known peer assistant, reply to a
message authored by this assistant, or selected by the random sampling
rate. -/
def specTriggerPred (botUserName : List Char) (randHit : Bool) (m : DMessage) : Bool :=
  m.mentionsBot || nameInContent botUserName m ||
    OTHER_BOTS.any (fun b => upperStr m.authorName == b) || m.replyToBot || randHit

/-- A concrete human-authored message: content "hello" from "alice", not a
bot, no mention of the assistant, not a reply to it. -/
def sampleHumanMsg : DMessage :=
  { content := "hello".toList, authorName := "alice".toList,
    authorId := "1001".toList, authorIsBot := false, mentionsBot := false,
    replyToBot := false }

/-- C3 (code bug): a message selected only by the 10% random sampling draw is
recorded and enqueued by on_message, but the worker's relevance filter in
process_message_queue has no random clause, so the message is dropped without
a reply — refuting the claimed iff (and the code's own comment that the draw
makes the bot spontaneously join the conversation). -/
theorem c3_random_only_message_gets_no_reply :
    specTriggerPred BOT_NAME true sampleHumanMsg = true ∧
    shouldProcess BOT_NAME true sampleHumanMsg = true ∧
    onMessageRecords false = true ∧
    isRelevant BOT_NAME sampleHumanMsg = false ∧
    triggersReply BOT_NAME true sampleHumanMsg = false := by
  decide

/-- MetaLLM.py lines 217-222: the bot_message record sent to the chat history
service after a successful completion. -/
structure BotMessage where
  user_id : List Char
  content : List Char
  replying_to : Option (List Char)
  role : List Char
deriving DecidableEq

def mkBotMessage (botUserId : List Char) (m : DMessage) (resp : List Char) :
    BotMessage :=
  { user_id := "<@".toList ++ botUserId ++ ">".toList,
    content := resp,
    replying_to := some ("<@".toList ++ m.authorId ++ ">".toList),
    role := "assistant".toList }

/-- The externally visible effects of the per-message reply loop, in
program order. -/
inductive OutEvent where
  | recordReply (bm : BotMessage)
  | sendChunk (part : List Char)
  | apologyReply (toAuthorId : List Char)
deriving DecidableEq

/-- MetaLLM.py lines 205-229: handling of one relevant message, given the
outcome of get_llm_response for it.  none models an HTTP failure or an
exception (get_llm_response returns None); Python's truthiness check
`if response_content` also routes an empty reply string to the apology
branch.  On success the reply is recorded (role "assistant") and then sent
in split chunks. -/
def processOne (botUserId : List Char) (llm : DMessage → Option (List Char))
    (m : DMessage) : List OutEvent :=
  match llm m with
  | none => [.apologyReply m.authorId]
  | some r =>
    if r = [] then [.apologyReply m.authorId]
    else .recordReply (mkBotMessage botUserId m r) ::
      (splitMessage r).map .sendChunk

/-- MetaLLM.py lines 205-229: the for-loop over the relevant messages of one
batch, as the ordered sequence of its effects. -/
def processRelevant (botUserId : List Char) (llm : DMessage → Option (List Char))
    (msgs : List DMessage) : List OutEvent :=
  (msgs.map (processOne botUserId llm)).flatten

/-- C7: a relevant message whose completion fails (no text) yields exactly
one apology event, no recordReply event, and the rest of the batch is
processed unchanged; on success the reply is recorded with role "assistant"
before its chunks are sent, and again the rest of the batch is processed
unchanged. -/
theorem c7_completion_failure_isolated (botUserId : List Char)
    (llm : DMessage → Option (List Char)) (pre post : List DMessage)
    (m : DMessage) :
    ((llm m = none ∨ llm m = some []) →
      processRelevant botUserId llm (pre ++ m :: post) =
        processRelevant botUserId llm pre ++
          ([OutEvent.apologyReply m.authorId] ++
            processRelevant botUserId llm post)) ∧
    (∀ r, llm m = some r → r ≠ [] →
      processRelevant botUserId llm (pre ++ m :: post) =
        processRelevant botUserId llm pre ++
          ((OutEvent.recordReply (mkBotMessage botUserId m r) ::
            (splitMessage r).map OutEvent.sendChunk) ++
            processRelevant botUserId llm post) ∧
      (mkBotMessage botUserId m r).role = "assistant".toList) := by
  constructor
  · intro hfail
    rcases hfail with hfail | hfail <;>
      simp [processRelevant, processOne, hfail]
  · intro r hr hne
    refine ⟨?_, rfl⟩
    simp [processRelevant, processOne, hr, hne]

/-- Witness for C7 at a failing completion for a concrete singleton batch. -/
theorem c7_witness :
    ((fun _ : DMessage => (none : Option (List Char))) sampleHumanMsg = none ∨
      (fun _ : DMessage => (none : Option (List Char))) sampleHumanMsg =
        some []) ∧
    processRelevant "42".toList (fun _ => none) ([] ++ sampleHumanMsg :: []) =
      processRelevant "42".toList (fun _ => none) [] ++
        ([OutEvent.apologyReply sampleHumanMsg.authorId] ++
          processRelevant "42".toList (fun _ => none) []) :=
  ⟨Or.inl rfl,
    (c7_completion_failure_isolated "42".toList (fun _ => none) [] []
      sampleHumanMsg).1 (Or.inl rfl)⟩

end MetaBot

namespace ChatHistory

/-- One row of the sqlite messages table (Chat History Service/main.py lines
22-30).  V is the embedding vector type; the embedding column holds
json.dumps(None) — modelled none — when the embedding call returned no
vector.  id is the AUTOINCREMENT rowid: the table is append-only, so it
equals the row's insertion position plus one.  Timestamps are modelled as
naturals; the stored ISO-8601 strings compare lexicographically exactly as
their creation instants do. -/
structure Row (V : Type) where
  id : Nat
  channel_id : String
  user_id : String
  timestamp : Nat
  replying_to : Option String
  content : String
  embedding : Option V
  role : String
deriving DecidableEq

/-- The request body of POST add_message (main.py lines 33-38). -/
structure MsgIn where
  channel_id : String
  user_id : String
  content : String
  replying_to : Option String
  role : String
deriving DecidableEq

/-- The observable outcome of one call to get_embedding (main.py lines
40-49): a vector from a 200 response; None from a non-200 response; or a
raised exception (connection error, malformed body) that propagates to the
caller, since get_embedding has no try/except. -/
inductive EmbOutcome (V : Type) where
  | ok (v : V)
  | failedResp
  | raised
deriving DecidableEq

/-- The response body of add_message (main.py line 65). -/
structure AddResp where
  status : String
  message_id : Nat
deriving DecidableEq

/-- POST add_message (main.py lines 53-65).  The embedding is fetched first;
a raised exception aborts the handler before the INSERT (FastAPI then
answers 500), while a None result is stored as the row's embedding column.
On insert the new rowid db.length + 1 is returned with status success. -/
def add_message {V : Type} (db : List (Row V)) (ts : Nat) (m : MsgIn)
    (emb : EmbOutcome V) : Except Unit (List (Row V) × AddResp) :=
  match emb with
  | .raised => .error ()
  | .failedResp =>
    .ok (db ++ [{ id := db.length + 1, channel_id := m.channel_id,
                  user_id := m.user_id, timestamp := ts,
                  replying_to := m.replying_to, content := m.content,
                  embedding := none, role := m.role }],
         { status := "success", message_id := db.length + 1 })
  | .ok v =>
    .ok (db ++ [{ id := db.length + 1, channel_id := m.channel_id,
                  user_id := m.user_id, timestamp := ts,
                  replying_to := m.replying_to, content := m.content,
                  embedding := some v, role := m.role }],
         { status := "success", message_id := db.length + 1 })

/-- The JSON shape both GET endpoints return per message (main.py lines
74-75 and 93-94). -/
structure OutMsg where
  id : Nat
  user : String
  timestamp : Nat
  replying_to : Option String
  content : String
  role : String
deriving DecidableEq

def Row.toOut {V : Type} (r : Row V) : OutMsg :=
  { id := r.id, user := r.user_id, timestamp := r.timestamp,
    replying_to := r.replying_to, content := r.content, role := r.role }

/-- Insertion step of ORDER BY timestamp DESC. -/
def insertTsDesc {V : Type} (a : Row V) : List (Row V) → List (Row V)
  | [] => [a]
  | b :: bs => if b.timestamp ≤ a.timestamp then a :: b :: bs
               else b :: insertTsDesc a bs

/-- The ORDER BY timestamp DESC of main.py line 71, as an insertion sort.
Among equal timestamps sqlite's order is unspecified; the store's
single-writer invariant makes timestamps strictly increasing, under which
any sort by descending timestamp is this one. -/
def sortTsDesc {V : Type} (rows : List (Row V)) : List (Row V) :=
  rows.foldr insertTsDesc []

/-- GET get_conversation_history (main.py lines 67-75): the channel's rows,
newest first, LIMIT-truncated, then reversed() into chronological order. -/
def get_conversation_history {V : Type} (db : List (Row V)) (ch : String)
    (limit : Nat) : List OutMsg :=
  (((sortTsDesc (db.filter (fun r => r.channel_id == ch))).take limit).reverse).map
    Row.toOut

/-- Following the spec's words for recent(channel_id, limit): the channel's
stored messages oldest-first, truncated to the most recent limit entries. -/
def recentSpec {V : Type} (db : List (Row V)) (ch : String) (limit : Nat) :
    List OutMsg :=
  ((db.filter (fun r => r.channel_id == ch)).drop
    ((db.filter (fun r => r.channel_id == ch)).length - limit)).map Row.toOut

/-- The single-writer store invariant (spec section 3): along insertion order,
ids and timestamps are strictly increasing. -/
def StoreWF {V : Type} (db : List (Row V)) : Prop :=
  db.Pairwise (fun a b => a.id < b.id ∧ a.timestamp < b.timestamp)

/-- Ascending insertion step for np.argsort over the score-row pairs. -/
def insertScoreAsc {V α : Type} [LinearOrder α] (x : α × Row V) :
    List (α × Row V) → List (α × Row V)
  | [] => [x]
  | y :: ys => if x.1 ≤ y.1 then x :: y :: ys else y :: insertScoreAsc x ys

def sortScoreAsc {V α : Type} [LinearOrder α] (l : List (α × Row V)) :
    List (α × Row V) :=
  l.foldr insertScoreAsc []

/-- main.py lines 88-91: similarities = cosine_similarity([q], embeddings)[0];
top_indices = np.argsort(similarities)[-limit:][::-1]; messages[i] for those
indices.  np.argsort sorts ascending (ties in an order this model fixes as
stable; no property here depends on it); [-limit:] keeps the last limit
entries — all of them when limit = 0, Python's negative-zero slice — and
[::-1] reverses into descending order. -/
def rank {V α : Type} [LinearOrder α] (sim : V → V → α) (q : V)
    (msgs : List (V × Row V)) (limit : Nat) : List (Row V) :=
  let sorted := sortScoreAsc (msgs.map (fun p => (sim q p.1, p.2)))
  let top := if limit = 0 then sorted else sorted.drop (sorted.length - limit)
  (top.reverse).map (fun p => p.2)

/-- GET get_relevant_context (main.py lines 77-94).  The query embedding is
fetched first: a raised exception aborts the handler (500).  With no rows in
the channel the handler returns [] before touching the embeddings.  Otherwise
cosine_similarity raises — a 500 — as soon as the query embedding or any
candidate row's embedding is null (np.array(None) yields an object array),
so a stored null embedding is not excluded but breaks the whole query; in
the remaining case every row has a vector and the sim-ranked top rows are
returned.  sim is the similarity function (sklearn's cosine similarity,
modelled in the Cosine namespace). -/
def get_relevant_context {V α : Type} [LinearOrder α] (sim : V → V → α)
    (db : List (Row V)) (ch : String) (qemb : EmbOutcome V) (limit : Nat) :
    Except Unit (List OutMsg) :=
  match qemb with
  | .raised => .error ()
  | .failedResp =>
    if (db.filter (fun r => r.channel_id == ch)).isEmpty then .ok []
    else .error ()
  | .ok q =>
    let msgs := db.filter (fun r => r.channel_id == ch)
    if msgs.isEmpty then .ok []
    else if msgs.any (fun r => r.embedding.isNone) then .error ()
    else .ok ((rank sim q
      (msgs.filterMap (fun r => r.embedding.map (fun v => (v, r)))) limit).map
        Row.toOut)

/-- The failing row for C4 and C6: stored without an embedding. -/
def nullEmbRow : Row Unit :=
  { id := 1, channel_id := "c1", user_id := "<@u1>", timestamp := 0,
    replying_to := none, content := "hello", embedding := none,
    role := "human" }

/-- C4 (code bug): with channel c1 holding exactly one message whose
embedding is absent, the claim requires the similarity query to exclude the
row and return the empty sequence; the code instead raises inside
cosine_similarity (a 500 error). -/
theorem c4_null_embedding_breaks_similarity :
    get_relevant_context (fun _ _ => (0 : Int)) [nullEmbRow] "c1"
      (.ok ()) 5 = .error () ∧
    get_relevant_context (fun _ _ => (0 : Int)) [nullEmbRow] "c1"
      (.ok ()) 5 ≠ .ok [] ∧
    nullEmbRow.embedding = none ∧ nullEmbRow.channel_id = "c1" := by
  refine ⟨rfl, ?_, rfl, rfl⟩
  intro h
  simp [get_relevant_context, nullEmbRow] at h

/-- The message submitted in C6's failing run. -/
def c6Msg : MsgIn :=
  { channel_id := "c1", user_id := "<@u1>", content := "hello",
    replying_to := none, role := "human" }

/-- C6 (code bug): when the embedding call raises (backend unreachable),
add_message aborts with an error and no row is inserted — the claim says a
failed embedding never prevents the insert.  By contrast a non-200 embedding
response does store the row with a null embedding and returns success with
the new id. -/
theorem c6_embedding_exception_blocks_insert :
    add_message ([] : List (Row Unit)) 0 c6Msg .raised = .error () ∧
    add_message ([] : List (Row Unit)) 0 c6Msg .failedResp =
      .ok ([nullEmbRow], { status := "success", message_id := 1 }) := by
  constructor <;> rfl

theorem insertTsDesc_of_all_gt {V : Type} (a : Row V) :
    ∀ l : List (Row V), (∀ b ∈ l, a.timestamp < b.timestamp) →
      insertTsDesc a l = l ++ [a]
  | [], _ => rfl
  | b :: bs, h => by
    have hb : a.timestamp < b.timestamp := h b (by simp)
    rw [insertTsDesc, if_neg (by omega),
      insertTsDesc_of_all_gt a bs (fun x hx => h x (by simp [hx]))]
    rfl

theorem sortTsDesc_of_increasing {V : Type} :
    ∀ l : List (Row V),
      l.Pairwise (fun p q => p.timestamp < q.timestamp) → sortTsDesc l = l.reverse
  | [], _ => rfl
  | a :: as, h => by
    rw [List.pairwise_cons] at h
    show insertTsDesc a (sortTsDesc as) = (a :: as).reverse
    rw [sortTsDesc_of_increasing as h.2,
      insertTsDesc_of_all_gt a as.reverse
        (fun b hb => h.1 b (List.mem_reverse.mp hb)),
      List.reverse_cons]

/-- C5: under the single-writer store invariant, get_conversation_history
returns exactly the channel's most recent `limit` rows oldest-first (the
spec's recent contract), its output is non-decreasing in id and timestamp,
holds at most `limit` entries, and is empty — not an error — for a channel
with no stored messages. -/
theorem c5_recent_history_oldest_first {V : Type} (db : List (Row V))
    (ch : String) (limit : Nat) (hwf : StoreWF db) :
    get_conversation_history db ch limit = recentSpec db ch limit ∧
    (get_conversation_history db ch limit).Pairwise
      (fun a b => a.id ≤ b.id ∧ a.timestamp ≤ b.timestamp) ∧
    (get_conversation_history db ch limit).length ≤ limit ∧
    (db.filter (fun r => r.channel_id == ch) = [] →
      get_conversation_history db ch limit = []) := by
  have hcs : (db.filter (fun r => r.channel_id == ch)).Pairwise
      (fun a b => a.id < b.id ∧ a.timestamp < b.timestamp) :=
    hwf.filter _
  have hsort : sortTsDesc (db.filter (fun r => r.channel_id == ch)) =
      (db.filter (fun r => r.channel_id == ch)).reverse :=
    sortTsDesc_of_increasing _ (hcs.imp (fun h => h.2))
  have heq : get_conversation_history db ch limit = recentSpec db ch limit := by
    unfold get_conversation_history recentSpec
    rw [hsort, List.take_reverse, List.reverse_reverse]
  have hdropwf : ((db.filter (fun r => r.channel_id == ch)).drop
      ((db.filter (fun r => r.channel_id == ch)).length - limit)).Pairwise
      (fun a b => a.id < b.id ∧ a.timestamp < b.timestamp) :=
    List.Pairwise.sublist (List.drop_sublist _ _) hcs
  refine ⟨heq, ?_, ?_, ?_⟩
  · rw [heq]
    unfold recentSpec
    rw [List.pairwise_map]
    exact hdropwf.imp (fun h => ⟨Nat.le_of_lt h.1, Nat.le_of_lt h.2⟩)
  · rw [heq]
    unfold recentSpec
    rw [List.length_map, List.length_drop]
    omega
  · intro hnil
    rw [heq]
    unfold recentSpec
    rw [hnil]
    simp

/-- A concrete two-row store for the C5 witness. -/
def c5db : List (Row Unit) :=
  [{ id := 1, channel_id := "c1", user_id := "<@u1>", timestamp := 10,
     replying_to := none, content := "one", embedding := none, role := "human" },
   { id := 2, channel_id := "c1", user_id := "<@u2>", timestamp := 20,
     replying_to := none, content := "two", embedding := none, role := "human" }]

/-- Witness for C5 at the two-row store with limit 1. -/
theorem c5_witness :
    StoreWF c5db ∧
    (get_conversation_history c5db "c1" 1 = recentSpec c5db "c1" 1 ∧
     (get_conversation_history c5db "c1" 1).Pairwise
       (fun a b => a.id ≤ b.id ∧ a.timestamp ≤ b.timestamp) ∧
     (get_conversation_history c5db "c1" 1).length ≤ 1 ∧
     (c5db.filter (fun r => r.channel_id == "c1") = [] →
       get_conversation_history c5db "c1" 1 = [])) :=
  ⟨by unfold StoreWF; decide,
   c5_recent_history_oldest_first c5db "c1" 1 (by unfold StoreWF; decide)⟩

end ChatHistory

namespace Cosine

/-- Dot product of two real vectors; numpy requires equal lengths, the
truncating zip is harmless beyond that. -/
def dotR : List ℝ → List ℝ → ℝ
  | a :: as, b :: bs => a * b + dotR as bs
  | _, _ => 0

/-- Euclidean magnitude of a vector. -/
noncomputable def magR (v : List ℝ) : ℝ := Real.sqrt (dotR v v)

/-- sklearn.preprocessing.normalize as used by cosine_similarity: each row
divided by its norm, with a zero norm replaced by 1 (leaving the row, an
all-zero row, unchanged). -/
noncomputable def sklearnNormalize (v : List ℝ) : List ℝ :=
  if magR v = 0 then v else v.map (fun x => x / magR v)

/-- sklearn.metrics.pairwise.cosine_similarity on one pair of rows: the dot
product of the two normalized rows (main.py line 88). -/
noncomputable def sklearnCosine (u v : List ℝ) : ℝ :=
  dotR (sklearnNormalize u) (sklearnNormalize v)

theorem dotR_self_nonneg : ∀ v : List ℝ, 0 ≤ dotR v v
  | [] => le_refl 0
  | a :: as => by
    show 0 ≤ a * a + dotR as as
    exact add_nonneg (mul_self_nonneg a) (dotR_self_nonneg as)

theorem dotR_self_zero_entries : ∀ v : List ℝ, dotR v v = 0 → ∀ x ∈ v, x = 0
  | [], _, x, hx => by simp at hx
  | a :: as, h, x, hx => by
    have h1 : a * a + dotR as as = 0 := h
    have h2 := (add_eq_zero_iff_of_nonneg (mul_self_nonneg a)
      (dotR_self_nonneg as)).mp h1
    rcases List.mem_cons.mp hx with rfl | hx
    · exact mul_self_eq_zero.mp h2.1
    · exact dotR_self_zero_entries as h2.2 x hx

theorem dotR_zero_left : ∀ u w : List ℝ, (∀ x ∈ u, x = 0) → dotR u w = 0
  | [], w, _ => by cases w <;> rfl
  | a :: as, [], _ => rfl
  | a :: as, b :: bs, h => by
    show a * b + dotR as bs = 0
    rw [h a (by simp), dotR_zero_left as bs (fun x hx => h x (by simp [hx])),
      zero_mul, add_zero]

theorem dotR_zero_right : ∀ u w : List ℝ, (∀ x ∈ w, x = 0) → dotR u w = 0
  | [], w, _ => by cases w <;> rfl
  | a :: as, [], _ => rfl
  | a :: as, b :: bs, h => by
    show a * b + dotR as bs = 0
    rw [h b (by simp), dotR_zero_right as bs (fun x hx => h x (by simp [hx])),
      mul_zero, add_zero]

theorem dotR_map_mul_left (c : ℝ) :
    ∀ u w : List ℝ, dotR (u.map (fun x => c * x)) w = c * dotR u w
  | [], w => by cases w <;> simp [dotR]
  | a :: as, [] => by simp [dotR]
  | a :: as, b :: bs => by
    show c * a * b + dotR (as.map _) bs = c * (a * b + dotR as bs)
    rw [dotR_map_mul_left c as bs]
    ring

theorem dotR_map_mul_right (c : ℝ) :
    ∀ u w : List ℝ, dotR u (w.map (fun x => c * x)) = c * dotR u w
  | [], w => by cases w <;> simp [dotR]
  | a :: as, [] => by simp [dotR]
  | a :: as, b :: bs => by
    show a * (c * b) + dotR as (bs.map _) = c * (a * b + dotR as bs)
    rw [dotR_map_mul_right c as bs]
    ring

theorem mag_zero_entries {v : List ℝ} (h : magR v = 0) : ∀ x ∈ v, x = 0 :=
  dotR_self_zero_entries v ((Real.sqrt_eq_zero (dotR_self_nonneg v)).mp h)

/-- C9: the ranking score sklearn computes equals the dot product divided by
the product of the magnitudes whenever both magnitudes are nonzero, and it
is exactly 0 — never an undefined 0/0 — whenever either vector has zero
magnitude. -/
theorem c9_cosine_similarity_formula (u v : List ℝ) :
    ((magR u = 0 ∨ magR v = 0) → sklearnCosine u v = 0) ∧
    (magR u ≠ 0 → magR v ≠ 0 →
      sklearnCosine u v = dotR u v / (magR u * magR v)) := by
  constructor
  · intro hz
    rcases hz with hz | hz
    · have hu : sklearnNormalize u = u := by
        unfold sklearnNormalize
        rw [if_pos hz]
      unfold sklearnCosine
      rw [hu]
      exact dotR_zero_left u _ (mag_zero_entries hz)
    · have hv : sklearnNormalize v = v := by
        unfold sklearnNormalize
        rw [if_pos hz]
      unfold sklearnCosine
      rw [hv]
      exact dotR_zero_right _ v (mag_zero_entries hz)
  · intro hu hv
    unfold sklearnCosine sklearnNormalize
    rw [if_neg hu, if_neg hv]
    have hmu : u.map (fun x => x / magR u) = u.map (fun x => (magR u)⁻¹ * x) := by
      apply List.map_congr_left
      intro x _
      rw [div_eq_inv_mul]
    have hmv : v.map (fun x => x / magR v) = v.map (fun x => (magR v)⁻¹ * x) := by
      apply List.map_congr_left
      intro x _
      rw [div_eq_inv_mul]
    rw [hmu, hmv, dotR_map_mul_left, dotR_map_mul_right, div_eq_mul_inv,
      mul_inv]
    ring

/-- Witness for C9 at the one-entry vectors [1] and [1]. -/
theorem c9_witness :
    magR [1] ≠ 0 ∧
    sklearnCosine [1] [1] = dotR [1] [1] / (magR [1] * magR [1]) := by
  have h1 : magR [1] = 1 := by
    unfold magR
    show Real.sqrt (1 * 1 + dotR [] []) = 1
    norm_num [dotR]
  have hne : magR [1] ≠ 0 := by
    rw [h1]
    norm_num
  exact ⟨hne, (c9_cosine_similarity_formula [1] [1]).2 hne hne⟩

end Cosine

/-!
The per-channel dispatcher of MetaLLM.py (message_queue, processing_channels,
process_message_queue, on_message) as an interleaving transition system.

Modelling decisions, each conservative for the safety properties proved:

* One channel is modelled.  message_queue and processing_channels are keyed
  by channel_id and every operation touches only its own key, so the state
  of distinct channels evolves independently and a per-channel invariant
  holds for each channel of the full system exactly when it holds here.

* asyncio runs one coroutine segment at a time: a step of the model is
  (at most) the code between two suspension points.  Some genuinely atomic
  segments are split into several steps (the guard and the first while-test;
  the pop and the per-message processing), which only enlarges the set of
  interleavings: every schedule of the real program maps onto a schedule
  here, so an invariant over all reachable states of this system holds in
  the program.  What the code keeps atomic and the correctness depends on —
  the guard test-and-insert of processing_channels (lines 191-192), the pop
  of the whole queue (line 195), and the exit path that re-tests the queue
  and removes the channel from processing_channels (lines 194, 235) — is
  kept atomic, exactly as the code has no await between those operations.

* Executions are exception-free: the except/finally path of
  process_message_queue (lines 232-235) and failures of the awaited calls
  other than get_llm_response (whose failure is a normal None return) are
  not modelled; the claims describe normal operation.

* enqueued and taken are history variables recording the arrival order of
  enqueued messages and the batches in pop order; they change nothing
  observable.
-/

namespace Dispatcher

/-- The scheduling state of one spawned process_message_queue task: start =
created by asyncio.create_task (line 267), guard not yet run; takeNext =
about to evaluate the while condition of line 194; working rest inLLM =
draining the current batch, rest still to process, inLLM true exactly while
get_llm_response is awaited (line 212); done = returned. -/
inductive WSt (Msg : Type) where
  | start
  | takeNext
  | working (rest : List Msg) (inLLM : Bool)
  | done
deriving DecidableEq

/-- The channel's shared state: queue models message_queue.get(channel_id)
(none = key absent), processing models channel_id ∈ processing_channels,
workers the tasks spawned for this channel, enqueued and taken the history
variables. -/
structure St (Msg : Type) where
  queue : Option (List Msg)
  processing : Bool
  workers : List (WSt Msg)
  enqueued : List Msg
  taken : List (List Msg)
deriving DecidableEq

def pendingList {Msg : Type} : Option (List Msg) → List Msg
  | none => []
  | some l => l

def initSt {Msg : Type} : St Msg :=
  { queue := none, processing := false, workers := [], enqueued := [], taken := [] }

/-- One atomic step.  rel is the worker's relevance filter (isRelevant of the
MetaBot namespace, kept abstract here).  enq_new and enq_app are on_message
lines 263-268: creating the key spawns a task, an existing key only receives
the append (both without an intervening await).  guard_skip and guard_enter
are the test of lines 191-192 with its processing_channels insert.
take_batch is the while-test of line 194 finding the key present, the pop of
line 195 and the filter of lines 196-199.  stop_empty is the while-test
finding the key absent and the finally-removal of line 235, with no await
between them.  llm_start/llm_end bracket the awaited get_llm_response for
the batch's next message; the remaining awaits of the loop body touch no
shared state and are absorbed.  batch_done returns to the while-test (after
the sleep of line 231). -/
inductive Step {Msg : Type} (rel : Msg → Bool) : St Msg → St Msg → Prop where
  | enq_new (s : St Msg) (m : Msg) (hq : s.queue = none) :
      Step rel s { s with queue := some [m],
                          workers := s.workers ++ [WSt.start],
                          enqueued := s.enqueued ++ [m] }
  | enq_app (s : St Msg) (m : Msg) (l : List Msg) (hq : s.queue = some l) :
      Step rel s { s with queue := some (l ++ [m]),
                          enqueued := s.enqueued ++ [m] }
  | guard_skip (s : St Msg) (w1 w2 : List (WSt Msg))
      (hw : s.workers = w1 ++ WSt.start :: w2)
      (hg : s.queue = none ∨ s.processing = true) :
      Step rel s { s with workers := w1 ++ WSt.done :: w2 }
  | guard_enter (s : St Msg) (w1 w2 : List (WSt Msg)) (l : List Msg)
      (hw : s.workers = w1 ++ WSt.start :: w2)
      (hq : s.queue = some l) (hp : s.processing = false) :
      Step rel s { s with processing := true,
                          workers := w1 ++ WSt.takeNext :: w2 }
  | take_batch (s : St Msg) (w1 w2 : List (WSt Msg)) (l : List Msg)
      (hw : s.workers = w1 ++ WSt.takeNext :: w2) (hq : s.queue = some l) :
      Step rel s { s with queue := none,
                          taken := s.taken ++ [l],
                          workers := w1 ++ WSt.working (l.filter rel) false :: w2 }
  | stop_empty (s : St Msg) (w1 w2 : List (WSt Msg))
      (hw : s.workers = w1 ++ WSt.takeNext :: w2) (hq : s.queue = none) :
      Step rel s { s with processing := false,
                          workers := w1 ++ WSt.done :: w2 }
  | llm_start (s : St Msg) (w1 w2 : List (WSt Msg)) (m : Msg) (rest : List Msg)
      (hw : s.workers = w1 ++ WSt.working (m :: rest) false :: w2) :
      Step rel s { s with workers := w1 ++ WSt.working (m :: rest) true :: w2 }
  | llm_end (s : St Msg) (w1 w2 : List (WSt Msg)) (m : Msg) (rest : List Msg)
      (hw : s.workers = w1 ++ WSt.working (m :: rest) true :: w2) :
      Step rel s { s with workers := w1 ++ WSt.working rest false :: w2 }
  | batch_done (s : St Msg) (w1 w2 : List (WSt Msg))
      (hw : s.workers = w1 ++ WSt.working [] false :: w2) :
      Step rel s { s with workers := w1 ++ WSt.takeNext :: w2 }

/-- The states reachable from the idle channel. -/
inductive Reach {Msg : Type} (rel : Msg → Bool) : St Msg → Prop where
  | base : Reach rel initSt
  | step {s t : St Msg} : Reach rel s → Step rel s t → Reach rel t

/-- A worker inside the drain loop (between the processing_channels insert
and its removal). -/
def isRegion {Msg : Type} : WSt Msg → Bool
  | .takeNext => true
  | .working _ _ => true
  | _ => false

/-- A worker with a get_llm_response call in flight. -/
def isInLLM {Msg : Type} : WSt Msg → Bool
  | .working _ true => true
  | _ => false

def regionCount {Msg : Type} (s : St Msg) : Nat := s.workers.countP isRegion

/-- The inductive invariant: at most one worker in the drain loop,
processing_channels membership tracks it exactly, the history equation
(arrivals = popped batches, in order, then the still-pending suffix), the
queue's list is never empty while the key exists, and a present key is
covered by a running or a scheduled worker. -/
def Inv {Msg : Type} (s : St Msg) : Prop :=
  regionCount s ≤ 1 ∧
  (s.processing = true ↔ regionCount s = 1) ∧
  s.enqueued = s.taken.flatten ++ pendingList s.queue ∧
  (∀ l, s.queue = some l → l ≠ []) ∧
  (s.queue ≠ none → s.processing = true ∨ WSt.start ∈ s.workers)

theorem countP_mid {Msg : Type} (p : WSt Msg → Bool) (w1 w2 : List (WSt Msg))
    (x : WSt Msg) :
    (w1 ++ x :: w2).countP p =
      w1.countP p + w2.countP p + (if p x then 1 else 0) := by
  rw [List.countP_append, List.countP_cons]
  omega

theorem start_mem_swap {Msg : Type} {w1 w2 : List (WSt Msg)} {x : WSt Msg}
    (y : WSt Msg) (hx : x ≠ WSt.start) (h : WSt.start ∈ w1 ++ x :: w2) :
    WSt.start ∈ w1 ++ y :: w2 := by
  rcases List.mem_append.mp h with h | h
  · exact List.mem_append_left _ h
  · rcases List.mem_cons.mp h with h | h
    · exact absurd h.symm hx
    · exact List.mem_append_right _ (List.mem_cons_of_mem _ h)

theorem inv_step {Msg : Type} {rel : Msg → Bool} {s t : St Msg}
    (hinv : Inv s) (hst : Step rel s t) : Inv t := by
  obtain ⟨h1, h2, h3, h4, h5⟩ := hinv
  cases hst with
  | enq_new m hq =>
    refine ⟨?_, ?_, ?_, ?_, ?_⟩
    · show (s.workers ++ [WSt.start]).countP isRegion ≤ 1
      simpa [List.countP_append, List.countP_cons, isRegion] using h1
    · show s.processing = true ↔ (s.workers ++ [WSt.start]).countP isRegion = 1
      simpa [List.countP_append, List.countP_cons, isRegion] using h2
    · show s.enqueued ++ [m] = s.taken.flatten ++ pendingList (some [m])
      rw [h3, hq]
      simp [pendingList]
    · intro l hl
      simp only [Option.some.injEq] at hl
      rw [← hl]
      simp
    · intro _
      exact Or.inr (List.mem_append_right _ (by simp))
  | enq_app m l hq =>
    refine ⟨h1, h2, ?_, ?_, ?_⟩
    · show s.enqueued ++ [m] = s.taken.flatten ++ pendingList (some (l ++ [m]))
      rw [hq] at h3
      rw [h3]
      simp [pendingList]
    · intro l2 hl2
      simp only [Option.some.injEq] at hl2
      rw [← hl2]
      simp
    · intro _
      exact h5 (by simp [hq])
  | guard_skip w1 w2 hw hg =>
    have hcount : (w1 ++ WSt.done :: w2).countP isRegion =
        s.workers.countP isRegion := by
      rw [hw, countP_mid, countP_mid]
      simp [isRegion]
    refine ⟨?_, ?_, h3, h4, ?_⟩
    · show (w1 ++ WSt.done :: w2).countP isRegion ≤ 1
      rw [hcount]
      exact h1
    · show s.processing = true ↔ (w1 ++ WSt.done :: w2).countP isRegion = 1
      rw [hcount]
      exact h2
    · intro hqne
      rcases hg with hqe | hp
      · exact absurd hqe hqne
      · exact Or.inl hp
  | guard_enter w1 w2 l hw hq hp =>
    have hc0 : s.workers.countP isRegion = 0 := by
      have hle := h1
      by_cases hone : s.workers.countP isRegion = 1
      · have := h2.mpr hone
        rw [hp] at this
        exact absurd this (by simp)
      · unfold regionCount at hle
        omega
    rw [hw, countP_mid] at hc0
    rw [show (if isRegion (WSt.start : WSt Msg) then 1 else 0) = 0 from rfl] at hc0
    have hnew : (w1 ++ WSt.takeNext :: w2).countP isRegion = 1 := by
      rw [countP_mid,
        show (if isRegion (WSt.takeNext : WSt Msg) then 1 else 0) = 1 from rfl]
      omega
    refine ⟨?_, ?_, h3, h4, ?_⟩
    · show (w1 ++ WSt.takeNext :: w2).countP isRegion ≤ 1
      rw [hnew]
    · show true = true ↔ (w1 ++ WSt.takeNext :: w2).countP isRegion = 1
      simp [hnew]
    · intro _
      exact Or.inl rfl
  | take_batch w1 w2 l hw hq =>
    have hcount : (w1 ++ WSt.working (l.filter rel) false :: w2).countP isRegion =
        s.workers.countP isRegion := by
      rw [hw, countP_mid, countP_mid]
      simp [isRegion]
    refine ⟨?_, ?_, ?_, ?_, ?_⟩
    · show (w1 ++ WSt.working (l.filter rel) false :: w2).countP isRegion ≤ 1
      rw [hcount]
      exact h1
    · show s.processing = true ↔
        (w1 ++ WSt.working (l.filter rel) false :: w2).countP isRegion = 1
      rw [hcount]
      exact h2
    · show s.enqueued = (s.taken ++ [l]).flatten ++ pendingList none
      rw [hq] at h3
      rw [h3]
      simp [pendingList]
    · intro l2 hl2
      simp at hl2
    · intro hne
      exact absurd rfl hne
  | stop_empty w1 w2 hw hq =>
    have hold : s.workers.countP isRegion =
        w1.countP isRegion + w2.countP isRegion + 1 := by
      rw [hw, countP_mid]
      simp [isRegion]
    have hnew : (w1 ++ WSt.done :: w2).countP isRegion =
        w1.countP isRegion + w2.countP isRegion := by
      rw [countP_mid]
      simp [isRegion]
    have hle := h1
    unfold regionCount at hle
    refine ⟨?_, ?_, h3, h4, ?_⟩
    · show (w1 ++ WSt.done :: w2).countP isRegion ≤ 1
      rw [hnew]
      omega
    · show false = true ↔ (w1 ++ WSt.done :: w2).countP isRegion = 1
      rw [hnew]
      constructor
      · intro hf
        exact absurd hf (by simp)
      · intro hcnt
        omega
    · intro hne
      exact absurd hq hne
  | llm_start w1 w2 m rest hw =>
    have hcount : (w1 ++ WSt.working (m :: rest) true :: w2).countP isRegion =
        s.workers.countP isRegion := by
      rw [hw, countP_mid, countP_mid]
      simp [isRegion]
    refine ⟨?_, ?_, h3, h4, ?_⟩
    · show (w1 ++ WSt.working (m :: rest) true :: w2).countP isRegion ≤ 1
      rw [hcount]
      exact h1
    · show s.processing = true ↔
        (w1 ++ WSt.working (m :: rest) true :: w2).countP isRegion = 1
      rw [hcount]
      exact h2
    · intro hne
      rcases h5 hne with hp | hstart
      · exact Or.inl hp
      · exact Or.inr (start_mem_swap _ (by simp) (hw ▸ hstart))
  | llm_end w1 w2 m rest hw =>
    have hcount : (w1 ++ WSt.working rest false :: w2).countP isRegion =
        s.workers.countP isRegion := by
      rw [hw, countP_mid, countP_mid]
      simp [isRegion]
    refine ⟨?_, ?_, h3, h4, ?_⟩
    · show (w1 ++ WSt.working rest false :: w2).countP isRegion ≤ 1
      rw [hcount]
      exact h1
    · show s.processing = true ↔
        (w1 ++ WSt.working rest false :: w2).countP isRegion = 1
      rw [hcount]
      exact h2
    · intro hne
      rcases h5 hne with hp | hstart
      · exact Or.inl hp
      · exact Or.inr (start_mem_swap _ (by simp) (hw ▸ hstart))
  | batch_done w1 w2 hw =>
    have hcount : (w1 ++ WSt.takeNext :: w2).countP isRegion =
        s.workers.countP isRegion := by
      rw [hw, countP_mid, countP_mid]
      simp [isRegion]
    refine ⟨?_, ?_, h3, h4, ?_⟩
    · show (w1 ++ WSt.takeNext :: w2).countP isRegion ≤ 1
      rw [hcount]
      exact h1
    · show s.processing = true ↔
        (w1 ++ WSt.takeNext :: w2).countP isRegion = 1
      rw [hcount]
      exact h2
    · intro hne
      rcases h5 hne with hp | hstart
      · exact Or.inl hp
      · exact Or.inr (start_mem_swap _ (by simp) (hw ▸ hstart))

theorem inv_of_reach {Msg : Type} {rel : Msg → Bool} {s : St Msg}
    (h : Reach rel s) : Inv s := by
  induction h with
  | base =>
    refine ⟨?_, ?_, rfl, ?_, ?_⟩
    · show ([] : List (WSt Msg)).countP isRegion ≤ 1
      simp
    · show false = true ↔ ([] : List (WSt Msg)).countP isRegion = 1
      simp
    · intro l hl
      exact Option.noConfusion hl
    · intro hne
      exact absurd rfl hne
  | step _ hstep ih => exact inv_step ih hstep

theorem isInLLM_imp_isRegion {Msg : Type} (w : WSt Msg) :
    isInLLM w = true → isRegion w = true := by
  cases w with
  | start => simp [isInLLM]
  | takeNext => simp [isRegion]
  | working rest b => cases b <;> simp [isInLLM, isRegion]
  | done => simp [isInLLM]

theorem regionWeight_start {Msg : Type} :
    (if isRegion (WSt.start : WSt Msg) then 1 else 0) = 0 := rfl

theorem regionWeight_done {Msg : Type} :
    (if isRegion (WSt.done : WSt Msg) then 1 else 0) = 0 := rfl

theorem regionWeight_takeNext {Msg : Type} :
    (if isRegion (WSt.takeNext : WSt Msg) then 1 else 0) = 1 := rfl

theorem regionWeight_working {Msg : Type} (rest : List Msg) (b : Bool) :
    (if isRegion (WSt.working rest b) then 1 else 0) = 1 := rfl

/-- C1: in every reachable state of the per-channel dispatcher, at most one
worker is inside the drain loop of process_message_queue for the channel
(so no two invocations drain it concurrently), and at most one
get_llm_response call is in flight for the channel. -/
theorem c1_single_worker_per_channel {Msg : Type} (rel : Msg → Bool)
    (s : St Msg) (h : Reach rel s) :
    s.workers.countP isRegion ≤ 1 ∧ s.workers.countP isInLLM ≤ 1 := by
  have hinv := inv_of_reach h
  refine ⟨hinv.1, ?_⟩
  exact le_trans
    (List.countP_mono_left (fun x _ => isInLLM_imp_isRegion x)) hinv.1

/-- Witness for C1 at the reachable idle state of a channel. -/
theorem c1_witness :
    Reach (fun _ : Nat => true) (initSt : St Nat) ∧
    ((initSt : St Nat).workers.countP isRegion ≤ 1 ∧
     (initSt : St Nat).workers.countP isInLLM ≤ 1) :=
  ⟨Reach.base, c1_single_worker_per_channel (fun _ => true) initSt Reach.base⟩

/-- C2: in every reachable state, the arrival order of the enqueued messages
equals the popped batches in pop order followed by the still-pending suffix
(batches are FIFO, no message is processed twice); when no worker is
scheduled or draining, the queue is empty and every enqueued message lies in
exactly one popped batch (none lost); every step that pops takes the entire
non-empty pending sequence and leaves the queue empty; a worker leaves the
drain loop only when the check finds no pending messages, and at an empty
check the stop transition is the one available to it. -/
theorem c2_batches_fifo_exactly_once {Msg : Type} (rel : Msg → Bool)
    (s : St Msg) (h : Reach rel s) :
    s.enqueued = s.taken.flatten ++ pendingList s.queue ∧
    ((WSt.start ∉ s.workers ∧ s.workers.countP isRegion = 0) →
      s.enqueued = s.taken.flatten ∧ s.queue = none) ∧
    (∀ t, Step rel s t → t.taken ≠ s.taken →
      ∃ l, s.queue = some l ∧ l ≠ [] ∧ t.taken = s.taken ++ [l] ∧
        t.queue = none) ∧
    (∀ t, Step rel s t →
      t.workers.countP isRegion < s.workers.countP isRegion →
      s.queue = none) ∧
    (∀ w1 w2, s.workers = w1 ++ WSt.takeNext :: w2 → s.queue = none →
      Step rel s { s with processing := false,
                          workers := w1 ++ WSt.done :: w2 }) := by
  obtain ⟨h1, h2, h3, h4, h5⟩ := inv_of_reach h
  refine ⟨h3, ?_, ?_, ?_, ?_⟩
  · intro hq
    obtain ⟨hns, hc0⟩ := hq
    have hqn : s.queue = none := by
      by_cases hcase : s.queue = none
      · exact hcase
      · rcases h5 hcase with hp | hstart
        · have := h2.mp hp
          unfold regionCount at this
          omega
        · exact absurd hstart hns
    constructor
    · rw [h3, hqn]
      simp [pendingList]
    · exact hqn
  · intro t hst hne
    cases hst with
    | enq_new m hq => exact absurd rfl hne
    | enq_app m l hq => exact absurd rfl hne
    | guard_skip w1 w2 hw hg => exact absurd rfl hne
    | guard_enter w1 w2 l hw hq hp => exact absurd rfl hne
    | take_batch w1 w2 l hw hq => exact ⟨l, hq, h4 l hq, rfl, rfl⟩
    | stop_empty w1 w2 hw hq => exact absurd rfl hne
    | llm_start w1 w2 m rest hw => exact absurd rfl hne
    | llm_end w1 w2 m rest hw => exact absurd rfl hne
    | batch_done w1 w2 hw => exact absurd rfl hne
  · intro t hst hlt
    cases hst with
    | enq_new m hq =>
      rw [List.countP_append, List.countP_cons, List.countP_nil,
        regionWeight_start] at hlt
      omega
    | enq_app m l hq => exact absurd hlt (lt_irrefl _)
    | guard_skip w1 w2 hw hg =>
      rw [hw, countP_mid, countP_mid, regionWeight_start,
        regionWeight_done] at hlt
      omega
    | guard_enter w1 w2 l hw hq hp =>
      rw [hw, countP_mid, countP_mid, regionWeight_start,
        regionWeight_takeNext] at hlt
      omega
    | take_batch w1 w2 l hw hq =>
      rw [hw, countP_mid, countP_mid, regionWeight_takeNext,
        regionWeight_working] at hlt
      omega
    | stop_empty w1 w2 hw hq => exact hq
    | llm_start w1 w2 m rest hw =>
      rw [hw, countP_mid, countP_mid, regionWeight_working,
        regionWeight_working] at hlt
      omega
    | llm_end w1 w2 m rest hw =>
      rw [hw, countP_mid, countP_mid, regionWeight_working,
        regionWeight_working] at hlt
      omega
    | batch_done w1 w2 hw =>
      rw [hw, countP_mid, countP_mid, regionWeight_working,
        regionWeight_takeNext] at hlt
      omega
  · intro w1 w2 hw hq
    exact Step.stop_empty s w1 w2 hw hq

/-- Witness for C2 at the reachable idle state of a channel. -/
theorem c2_witness :
    Reach (fun _ : Nat => true) (initSt : St Nat) ∧
    ((initSt : St Nat).enqueued =
        (initSt : St Nat).taken.flatten ++ pendingList (initSt : St Nat).queue ∧
     ((WSt.start ∉ (initSt : St Nat).workers ∧
        (initSt : St Nat).workers.countP isRegion = 0) →
       (initSt : St Nat).enqueued = (initSt : St Nat).taken.flatten ∧
       (initSt : St Nat).queue = none) ∧
     (∀ t, Step (fun _ : Nat => true) (initSt : St Nat) t →
       t.taken ≠ (initSt : St Nat).taken →
       ∃ l, (initSt : St Nat).queue = some l ∧ l ≠ [] ∧
         t.taken = (initSt : St Nat).taken ++ [l] ∧ t.queue = none) ∧
     (∀ t, Step (fun _ : Nat => true) (initSt : St Nat) t →
       t.workers.countP isRegion < (initSt : St Nat).workers.countP isRegion →
       (initSt : St Nat).queue = none) ∧
     (∀ w1 w2, (initSt : St Nat).workers = w1 ++ WSt.takeNext :: w2 →
       (initSt : St Nat).queue = none →
       Step (fun _ : Nat => true) (initSt : St Nat)
         { (initSt : St Nat) with processing := false,
                                  workers := w1 ++ WSt.done :: w2 })) :=
  ⟨Reach.base, c2_batches_fifo_exactly_once (fun _ => true) initSt Reach.base⟩

end Dispatcher
